import Mathlib

/-!
Verification development for the MLIT Tokyo indoor 3D map scripts
(shiwaku/mlit-tokyo-indoor-3dmap-on-maplibre).

Shallow embedding of:
  * `1.make_tokyo_3d_geojson.py`  : `PATTERNS` / `infer_floor_label`, `add_z_to_geom`
  * `2.merge_tokyo_floor_geojson.py` : identical `PATTERNS` / `infer_floor_label`
  * `3.add_z_to_geojson.py`       : `with_z`, `walk_coords`, `process_geom`
  * `4.shinjuku_network_3d_export.py` : `ord_to_floor`, `floor_to_z`,
    `_interp_line`, `add_z_geometry`, and the node/link merge+dropna step.

Numbers that the scripts handle exactly (coordinates fed to pure rebuilding,
floor offsets, ordinals) are embedded as `ℚ`; the interpolation pipeline of
script 4, which takes square roots (`math.hypot`), is embedded over `ℝ`.
-/

/-! ### String helpers (substring search, ASCII lowercasing)

`re.compile(r"_b3[_\.]", re.I).search(name)` on the concrete patterns of the
scripts means: the lowercased name contains the token followed by `_` or `.`.
We model the search over character lists.
-/

/-- Predicate `strStarts s t` : the list `s` is an initial segment of `t`. -/
def strStarts : List Char → List Char → Bool
  | [], _ => true
  | _ :: _, [] => false
  | a :: as, b :: bs => a == b && strStarts as bs

/-- Predicate `strHasSub s t` : the list `s` occurs contiguously inside `t`. -/
def strHasSub (s : List Char) : List Char → Bool
  | [] => strStarts s []
  | b :: bs => strStarts s (b :: bs) || strHasSub s bs

/-- ASCII lowercasing of one character, as Python `str.lower` acts on the
ASCII file names handled by the scripts. -/
def lowerChar (c : Char) : Char :=
  if 'A' ≤ c ∧ c ≤ 'Z' then Char.ofNat (c.toNat + 32) else c

/-! ### FloorLabelResolver, token side (scripts 1 and 2)

Source (`1.make_tokyo_3d_geojson.py` lines 49–68, and the identical copy in
`2.merge_tokyo_floor_geojson.py` lines 45–63):

    PATTERNS = [
        (re.compile(r"_b3[_\.]", re.I), "B3"), ... (re.compile(r"_4[_\.]", re.I), "4F"),
    ]
    def infer_floor_label(filename):
        for pat, label in PATTERNS:
            if pat.search(filename):
                return label
        return "0F"
-/

/-- One pattern of the table: the regex `tok[_\.]` with `re.I` searches for
`tok` followed by `_` or `.`, case-insensitively. -/
def pat_search (tok : String) (name : String) : Bool :=
  let n := name.data.map lowerChar
  strHasSub (tok.data ++ ['_']) n || strHasSub (tok.data ++ ['.']) n

/-- The `PATTERNS` table of scripts 1 and 2 (token of the regex, label),
in source order. -/
def PATTERNS : List (String × String) :=
  [("_b3", "B3"), ("_b2", "B2"), ("_b1", "B1"),
   ("_0", "0F"), ("_1", "1F"),
   ("_2out", "2out"), ("_3out", "3out"), ("_4out", "4out"),
   ("_2", "2F"), ("_3", "3F"), ("_4", "4F")]

/-- The `for pat, label in PATTERNS` loop body of `infer_floor_label`. -/
def infer_floor_loop (name : String) : List (String × String) → String
  | [] => "0F"
  | pl :: rest => if pat_search pl.1 name then pl.2 else infer_floor_loop name rest

/-- Function `infer_floor_label` of scripts 1 and 2: first matching rule wins,
default `"0F"`. -/
def infer_floor_label (filename : String) : String :=
  infer_floor_loop filename PATTERNS

/-! ### FloorLabelResolver, ordinal side + FloorRegistry (script 4)

Source (`4.shinjuku_network_3d_export.py` lines 47–66):

    def ord_to_floor(o):
        if o is None: return None
        try: v = int(round(float(o)))
        except Exception: return None
        if v < 0: return f"{abs(v)}B"
        elif v == 0: return "0F"
        else: return f"{v}F"

    def floor_to_z(floor_label):
        if floor_label is None: return None
        off = FLOOR_OFFSETS.get(floor_label)
        return None if off is None else BASE_Z + off
-/

/-- Python `round` on an exactly-representable value: round half to even. -/
def round_half_even (q : ℚ) : ℤ :=
  let f : ℤ := ⌊q⌋
  let r : ℚ := q - f
  if r < 1/2 then f
  else if 1/2 < r then f + 1
  else if f % 2 = 0 then f else f + 1

/-- Input of `ord_to_floor` as the script can receive it from the `ordinal`
column: absent (`None`/NaN), a value `float(o)`/`round` fails on (the
`except` branch), or a numeric value. -/
inductive OrdVal where
  | absent : OrdVal
  | nonNumeric : OrdVal
  | num (q : ℚ) : OrdVal
deriving DecidableEq

/-- Function `ord_to_floor` of script 4. -/
def ord_to_floor : OrdVal → Option String
  | .absent => none
  | .nonNumeric => none
  | .num q =>
    let v := round_half_even q
    some (if v < 0 then toString v.natAbs ++ "B"
          else if v = 0 then "0F"
          else toString v.toNat ++ "F")

/-- Constant `BASE_Z = 3.2` of script 4 (and scripts 1 and 3). -/
def BASE_Z : ℚ := 16/5

/-- Table `FLOOR_OFFSETS` of script 4 (note the `3B/2B/1B` spelling, unlike
script 1's `B3/B2/B1`). -/
def FLOOR_OFFSETS : List (String × ℚ) :=
  [("3B", -35), ("2B", -25), ("1B", -15), ("0F", 0),
   ("1F", 15), ("2F", 25), ("2out", 25),
   ("3F", 35), ("3out", 35), ("4F", 45), ("4out", 45)]

/-- Function `floor_to_z` of script 4: `BASE_Z + FLOOR_OFFSETS.get(label)`,
undefined on a missing label. -/
def floor_to_z : Option String → Option ℚ
  | none => none
  | some label => (FLOOR_OFFSETS.lookup label).map (fun off => BASE_Z + off)

/-- Evaluation rule for `round_half_even` when the fractional part is
below one half. -/
theorem round_half_even_lo (q : ℚ) (n : ℤ) (hn : ⌊q⌋ = n) (h : q - n < 1/2) :
    round_half_even q = n := by
  simp only [round_half_even, hn]
  rw [if_pos h]

/-- Evaluation rule for `round_half_even` when the fractional part is
above one half. -/
theorem round_half_even_hi (q : ℚ) (n : ℤ) (hn : ⌊q⌋ = n) (h : 1/2 < q - n) :
    round_half_even q = n + 1 := by
  simp only [round_half_even, hn]
  rw [if_neg (by linarith), if_pos h]

/-- Evaluation rule for `round_half_even` at an exact half with even floor. -/
theorem round_half_even_half_even (q : ℚ) (n : ℤ) (hn : ⌊q⌋ = n)
    (h : q - n = 1/2) (he : n % 2 = 0) : round_half_even q = n := by
  simp only [round_half_even, hn, h]
  rw [if_neg (by norm_num), if_neg (by norm_num), if_pos he]

/-- Evaluation rule for `round_half_even` at an exact half with odd floor. -/
theorem round_half_even_half_odd (q : ℚ) (n : ℤ) (hn : ⌊q⌋ = n)
    (h : q - n = 1/2) (he : n % 2 ≠ 0) : round_half_even q = n + 1 := by
  simp only [round_half_even, hn, h]
  rw [if_neg (by norm_num), if_neg (by norm_num), if_neg he]

example : round_half_even (-2) = -2 :=
  round_half_even_lo _ _ (by norm_num) (by norm_num)
example : round_half_even (26/10) = 3 :=
  round_half_even_hi _ 2 (by rw [Int.floor_eq_iff]; norm_num) (by norm_num)
example : ord_to_floor (.num (26/10)) = some "3F" := by
  have h : round_half_even (26/10) = 3 :=
    round_half_even_hi _ 2 (by rw [Int.floor_eq_iff]; norm_num) (by norm_num)
  simp only [ord_to_floor, h]
  decide
example : infer_floor_label "foo_2out_bar" = "2out" := by decide
example : infer_floor_label "ShinjukuTerminal_b2_Space.shp" = "B2" := by decide
example : floor_to_z (some "99F") = none := by decide
example : floor_to_z (some "0F") = some (BASE_Z + 0) := rfl

/-! ### Script 3 (`3.add_z_to_geojson.py`): `with_z` / `walk_coords`

Source (lines 20–44), with the configured `BASE_Z = 3.2`, `FILL_ONLY = False`:

    def with_z(coord):
        if not isinstance(coord, list) or len(coord) < 2: return coord
        x, y = coord[0], coord[1]
        if len(coord) >= 3:
            if FILL_ONLY: return coord
            else: out = coord[:]; out[2] = BASE_Z; return out
        else: return [x, y, BASE_Z]

    def walk_coords(obj):
        if isinstance(obj, list):
            if len(obj) >= 2 and all(isinstance(c, (int, float)) for c in obj[:2]):
                return with_z(obj)
            else: return [walk_coords(e) for e in obj]
        return obj

JSON values inside a `coordinates` tree are numbers, nested arrays, or
anything else (`other`: strings, null, …) that the script passes through.
-/

/-- A JSON value as `walk_coords` can see it. -/
inductive J where
  | num (q : ℚ) : J
  | other : J
  | arr (l : List J) : J

/-- Test `isinstance(c, (int, float))` of the script. -/
def J.isNum : J → Bool
  | .num _ => true
  | _ => false

/-- Flag `FILL_ONLY = False` of script 3. -/
def FILL_ONLY : Bool := false

/-- Function `with_z` of script 3 (`BASE_Z = 3.2`, configured `FILL_ONLY`). -/
def with_z (coord : J) : J :=
  match coord with
  | .arr l =>
    if l.length < 2 then .arr l
    else if 3 ≤ l.length then
      if FILL_ONLY then .arr l else .arr (l.set 2 (.num BASE_Z))
    else .arr (l ++ [.num BASE_Z])
  | j => j

/-- The coordinate-array test of `walk_coords`:
`len(obj) >= 2 and all(isinstance(c, (int, float)) for c in obj[:2])`. -/
def isCoordArr (l : List J) : Bool :=
  decide (2 ≤ l.length) && (l.take 2).all J.isNum

mutual
/-- Function `walk_coords` of script 3. -/
def walk_coords : J → J
  | .arr l =>
    if isCoordArr l then with_z (.arr l)
    else .arr (walk_coords_list l)
  | j => j
/-- Comprehension `[walk_coords(e) for e in obj]` of script 3. -/
def walk_coords_list : List J → List J
  | [] => []
  | j :: js => walk_coords j :: walk_coords_list js
end

/-- A geometry as `process_geom` dispatches on it: either it carries a
`coordinates` member, or it is a `GeometryCollection` with a `geometries`
list (script 3, lines 46–55). -/
inductive GeoObj where
  | geom (coords : J) : GeoObj
  | coll (gs : List GeoObj) : GeoObj

mutual
/-- Function `process_geom` of script 3: recurse into a `GeometryCollection`,
apply `walk_coords` to a `coordinates` member. -/
def process_geom : GeoObj → GeoObj
  | .geom c => .geom (walk_coords c)
  | .coll gs => .coll (process_geom_list gs)
/-- Comprehension `[process_geom(g) for g in geoms]` of script 3. -/
def process_geom_list : List GeoObj → List GeoObj
  | [] => []
  | g :: gs => process_geom g :: process_geom_list gs
end

mutual
/-- Predicate `coordsSat p j` : every leaf coordinate array of the tree `j` (an array
that `walk_coords` treats as a coordinate, i.e. length ≥ 2 with the first
two entries numeric) satisfies `p`. -/
def coordsSat (p : List J → Bool) : J → Bool
  | .arr l =>
    if isCoordArr l then p l
    else coordsSat_list p l
  | _ => true
/-- Predicate `coordsSat` over the entries of a nested array. -/
def coordsSat_list (p : List J → Bool) : List J → Bool
  | [] => true
  | j :: js => coordsSat p j && coordsSat_list p js
end

mutual
/-- Lift of `coordsSat` to geometries. -/
def geomSat (p : List J → Bool) : GeoObj → Bool
  | .geom c => coordsSat p c
  | .coll gs => geomSat_list p gs
/-- Predicate `geomSat` over the members of a collection. -/
def geomSat_list (p : List J → Bool) : List GeoObj → Bool
  | [] => true
  | g :: gs => geomSat p g && geomSat_list p gs
end

/-- Input shape the scripts consume: coordinate positions of 2 or 3
components. -/
def coordIn (l : List J) : Bool := decide (l.length = 2) || decide (l.length = 3)

/-- Output invariant of the claim: exactly 3 components, all numeric. -/
def coordOut3 (l : List J) : Bool := decide (l.length = 3) && l.all J.isNum

example : walk_coords (.arr [.arr [.num 1, .num 2]]) =
    .arr [.arr [.num 1, .num 2, .num BASE_Z]] := rfl
example : walk_coords (.arr [.arr [.num 1, .num 2, .num 9, .num 4]]) =
    .arr [.arr [.num 1, .num 2, .num BASE_Z, .num 4]] := rfl
example : geomSat coordOut3
    (process_geom (.geom (.arr [.arr [.num 1, .num 2, .num 9, .num 4]]))) = false := by
  decide
example : geomSat coordOut3
    (process_geom (.geom (.arr [.arr [.num 1, .num 2, .num 9]]))) = true := by decide

/-! ### Script 4 (`4.shinjuku_network_3d_export.py`): `_interp_line`

Source (lines 69–85):

    def _interp_line(line, z0, z1):
        xy = list(line.coords)
        if len(xy) == 1:
            x, y = xy[0]
            return LineString([(x, y, z0)])
        seg = [math.hypot(xy[i+1][0]-xy[i][0], xy[i+1][1]-xy[i][1]) for i in range(len(xy)-1)]
        total = sum(seg) or 1e-9
        acc = 0.0
        coords = [(xy[0][0], xy[0][1], z0)]
        for i in range(1, len(xy)):
            acc += seg[i-1]
            t = acc / total
            z = z0 + (z1 - z0) * t
            coords.append((xy[i][0], xy[i][1], z))
        return LineString(coords)

On an empty coordinate sequence the source raises `IndexError` at `xy[0]`
(shapely line strings are never a single isolated access away from that in
this pipeline), so the `[]` case below is unreachable; we return `[]` there.
-/

/-- Function `math.hypot` on two components. -/
noncomputable def hypot (dx dy : ℝ) : ℝ := Real.sqrt (dx ^ 2 + dy ^ 2)

/-- The per-segment planar lengths `seg` of `_interp_line`. -/
noncomputable def line_segs (xy : List (ℝ × ℝ)) : List ℝ :=
  (xy.zip xy.tail).map fun pq => hypot (pq.2.1 - pq.1.1) (pq.2.2 - pq.1.2)

/-- The running values of `acc` in the loop of `_interp_line`,
starting from `a`. -/
def cum_from (a : ℝ) : List ℝ → List ℝ
  | [] => []
  | s :: ss => (a + s) :: cum_from (a + s) ss

/-- Function `_interp_line` of script 4 (coordinates of the path are 2-tuples, as the
unpacking `x, y = xy[0]` requires; the output carries the interpolated Z as
third component). -/
noncomputable def _interp_line (xy : List (ℝ × ℝ)) (z0 z1 : ℝ) :
    List (ℝ × ℝ × ℝ) :=
  match xy with
  | [] => []
  | [p] => [(p.1, p.2, z0)]
  | p :: q :: rest =>
    let seg := line_segs (p :: q :: rest)
    let total := if seg.sum = 0 then 1 / 10 ^ 9 else seg.sum
    (p.1, p.2, z0) :: ((q :: rest).zip (cum_from 0 seg)).map fun qa =>
      (qa.1.1, qa.1.2, z0 + (z1 - z0) * (qa.2 / total))

/-- Network geometry as `add_z_geometry` dispatches on it.  The link data of
the pipeline is 2-D; `line3d` / `multiLine3d` are the shapes produced by
`_interp_line`.  `point` stands for any shape that is neither a `LineString`
nor a `MultiLineString` (the `else` branch of the source). -/
inductive NwGeom where
  | point (x y : ℝ) (z : Option ℝ) : NwGeom
  | line (coords : List (ℝ × ℝ)) : NwGeom
  | line3d (coords : List (ℝ × ℝ × ℝ)) : NwGeom
  | multiLine (parts : List (List (ℝ × ℝ))) : NwGeom
  | multiLine3d (parts : List (List (ℝ × ℝ × ℝ))) : NwGeom

/-- Function `add_z_geometry` of script 4 (lines 87–93): interpolate a `LineString`,
interpolate each part of a `MultiLineString` with the same `(z0, z1)`,
return anything else unchanged. -/
noncomputable def add_z_geometry (g : NwGeom) (z0 z1 : ℝ) : NwGeom :=
  match g with
  | .line c => .line3d (_interp_line c z0 z1)
  | .multiLine ps => .multiLine3d (ps.map fun c => _interp_line c z0 z1)
  | g => g

/-! ### Script 4: node/link join (`links.merge(...).merge(...)` + `dropna`)

Source (lines 103–125): nodes get `floor_label = ord_to_floor(ordinal)` and
`z = floor_to_z(floor_label)`; links are left-merged with the node table on
`start_id` and on `end_id`, rows with a missing `z_start`/`z_end` are counted
(`missing`) and dropped (`dropna`).  With unique node ids (they are keys), a
left merge is a lookup of the first matching node row.
-/

/-- One row of the node table. -/
structure NwNode where
  node_id : String
  ordinal : OrdVal
deriving DecidableEq

/-- One row of the link table (the geometry plays no role in the join). -/
structure NwLink where
  start_id : String
  end_id : String
deriving DecidableEq

/-- Column z of the node table: the Z of one node row,
`floor_to_z(ord_to_floor(ordinal))`. -/
def node_z (n : NwNode) : Option ℚ := floor_to_z (ord_to_floor n.ordinal)

/-- The Z the left merge attaches for node id `i`: the `z` of the first node
row whose `node_id` equals `i`, missing (`NaN`) when no row matches or the
matched row's `z` is itself missing. -/
def lookup_z (nodes : List NwNode) (i : String) : Option ℚ :=
  (nodes.find? fun n => n.node_id == i).bind node_z

/-- One row of the merged link table `L`. -/
structure MergedLink where
  link : NwLink
  z_start : Option ℚ
  z_end : Option ℚ
deriving DecidableEq

/-- The double left merge of script 4. -/
def links_merge (nodes : List NwNode) (links : List NwLink) :
    List MergedLink :=
  links.map fun l => ⟨l, lookup_z nodes l.start_id, lookup_z nodes l.end_id⟩

/-- Rows counted by the missing-Z check of script 4 (the isna filter). -/
def missing_links (nodes : List NwNode) (links : List NwLink) :
    List MergedLink :=
  (links_merge nodes links).filter fun m => m.z_start.isNone || m.z_end.isNone

/-- Rows kept by the dropna step of script 4. -/
def links_out (nodes : List NwNode) (links : List NwLink) :
    List MergedLink :=
  (links_merge nodes links).filter fun m => m.z_start.isSome && m.z_end.isSome

/-! ### Script 1 (`1.make_tokyo_3d_geojson.py`): `add_z_to_geom`

Source (lines 70–108): a guard returns `None`/empty geometries unchanged;
every supported shape kind is rebuilt with the uniform `z` as third
coordinate (overwriting any pre-existing Z); `GeometryCollection` recurses;
unknown kinds are passed through unchanged.  A coordinate is
`(x, y)` or `(x, y, z)`; we carry the optional pre-existing Z explicitly.
-/

/-- A leaf coordinate of script 1's geometry: x, y and an optional
pre-existing Z. -/
abbrev PtQ : Type := ℚ × ℚ × Option ℚ

/-- A shapely geometry as script 1 dispatches on `geom_type`.  `polygon`
carries the exterior ring and the interior rings; `multiPolygon` a list of
such pairs. -/
inductive Geom where
  | point (x y : ℚ) (z : Option ℚ) : Geom
  | multiPoint (ps : List PtQ) : Geom
  | lineString (cs : List PtQ) : Geom
  | multiLineString (ls : List (List PtQ)) : Geom
  | polygon (ext : List PtQ) (ints : List (List PtQ)) : Geom
  | multiPolygon (ps : List (List PtQ × List (List PtQ))) : Geom
  | collection (gs : List Geom) : Geom

mutual
/-- Shapely `is_empty`, structurally: a geometry with no coordinates.
(A point always carries coordinates; a multi-part geometry is empty when
all its parts are.) -/
def Geom.isVoid : Geom → Bool
  | .point _ _ _ => false
  | .multiPoint ps => ps.isEmpty
  | .lineString cs => cs.isEmpty
  | .multiLineString ls => ls.all List.isEmpty
  | .polygon ext _ => ext.isEmpty
  | .multiPolygon ps => ps.all fun pr => pr.1.isEmpty
  | .collection gs => Geom.isVoidList gs
/-- Emptiness over the members of a collection: all members empty. -/
def Geom.isVoidList : List Geom → Bool
  | [] => true
  | g :: gs => g.isVoid && Geom.isVoidList gs
end

/-- Rebuild one coordinate with the uniform `z` (`(xy[0], xy[1], z)`). -/
def setZ (z : ℚ) (c : PtQ) : PtQ := (c.1, c.2.1, some z)

mutual
/-- Function `add_z_to_geom` of script 1. -/
def add_z_to_geom (g : Geom) (z : ℚ) : Geom :=
  if g.isVoid then g
  else
    match g with
    | .point x y _ => .point x y (some z)
    | .multiPoint ps => .multiPoint (ps.map (setZ z))
    | .lineString cs => .lineString (cs.map (setZ z))
    | .multiLineString ls => .multiLineString (ls.map fun cs => cs.map (setZ z))
    | .polygon ext ints =>
      .polygon (ext.map (setZ z)) (ints.map fun r => r.map (setZ z))
    | .multiPolygon ps =>
      .multiPolygon (ps.map fun pr =>
        (pr.1.map (setZ z), pr.2.map fun r => r.map (setZ z)))
    | .collection gs => .collection (add_z_to_geom_list gs z)
/-- Comprehension `[add_z_to_geom(g, z) for g in geom.geoms]` of script 1. -/
def add_z_to_geom_list (gs : List Geom) (z : ℚ) : List Geom :=
  match gs with
  | [] => []
  | g :: rest => add_z_to_geom g z :: add_z_to_geom_list rest z
end

mutual
/-- The Z components of all leaf coordinates of a geometry, in order. -/
def leafZs : Geom → List (Option ℚ)
  | .point _ _ z => [z]
  | .multiPoint ps => ps.map fun c => c.2.2
  | .lineString cs => cs.map fun c => c.2.2
  | .multiLineString ls => (ls.map fun cs => cs.map fun c => c.2.2).flatten
  | .polygon ext ints =>
    (ext.map fun c => c.2.2) ++ (ints.map fun r => r.map fun c => c.2.2).flatten
  | .multiPolygon ps =>
    (ps.map fun pr =>
      (pr.1.map fun c => c.2.2) ++
        (pr.2.map fun r => r.map fun c => c.2.2).flatten).flatten
  | .collection gs => leafZsList gs
/-- Leaf Z components of the members of a collection. -/
def leafZsList : List Geom → List (Option ℚ)
  | [] => []
  | g :: gs => leafZs g ++ leafZsList gs
end

mutual
/-- Shapely-representable geometries: a polygon (or polygon part) with an
empty exterior ring has no interior rings — `Polygon(ext, ints)` cannot be
built otherwise. -/
def Geom.repOk : Geom → Bool
  | .polygon ext ints => !ext.isEmpty || ints.isEmpty
  | .multiPolygon ps => ps.all fun pr => !pr.1.isEmpty || pr.2.isEmpty
  | .collection gs => Geom.repOkList gs
  | _ => true
/-- Representability over the members of a collection. -/
def Geom.repOkList : List Geom → Bool
  | [] => true
  | g :: gs => g.repOk && Geom.repOkList gs
end

example : add_z_to_geom (.polygon [(0,0,some 9),(1,0,none),(0,1,none)] [[(1,1,none)]]) 7 =
    .polygon [(0,0,some 7),(1,0,some 7),(0,1,some 7)] [[(1,1,some 7)]] := rfl
example : leafZs (add_z_to_geom (.collection [.point 5 5 (some 1), .multiPoint [(2,2,none)]]) 7) =
    [some 7, some 7] := rfl

/-! ### Supporting lemmas about `line_segs`, `cum_from`, `_interp_line` -/

theorem line_segs_nonneg (xy : List (ℝ × ℝ)) : ∀ s ∈ line_segs xy, 0 ≤ s := by
  intro s hs
  simp only [line_segs, List.mem_map] at hs
  obtain ⟨pq, _, rfl⟩ := hs
  exact Real.sqrt_nonneg _

theorem sum_zero_of_nonneg {l : List ℝ} (h0 : ∀ x ∈ l, 0 ≤ x)
    (hs : l.sum = 0) : ∀ x ∈ l, x = 0 := by
  induction l with
  | nil => intro x hx; cases hx
  | cons a t ih =>
    have ha : 0 ≤ a := h0 a (List.mem_cons_self a t)
    have ht : 0 ≤ t.sum := List.sum_nonneg fun x hx => h0 x (List.mem_cons_of_mem a hx)
    have hsum : a + t.sum = 0 := by simpa using hs
    have ha0 : a = 0 := by linarith
    have hts : t.sum = 0 := by linarith
    intro x hx
    rcases List.mem_cons.1 hx with rfl | hx
    · exact ha0
    · exact ih (fun y hy => h0 y (List.mem_cons_of_mem a hy)) hts x hx

theorem cum_from_const {l : List ℝ} (h : ∀ s ∈ l, s = 0) :
    ∀ a : ℝ, ∀ c ∈ cum_from a l, c = a := by
  induction l with
  | nil => intro a c hc; cases hc
  | cons s t ih =>
    intro a c hc
    have hs : s = 0 := h s (List.mem_cons_self s t)
    rw [cum_from, hs, add_zero] at hc
    rcases List.mem_cons.1 hc with rfl | hc
    · rfl
    · exact ih (fun y hy => h y (List.mem_cons_of_mem s hy)) a c hc

theorem cum_from_length (l : List ℝ) : ∀ a : ℝ, (cum_from a l).length = l.length := by
  induction l with
  | nil => intro a; rfl
  | cons s t ih => intro a; simp [cum_from, ih]

theorem cum_from_getLast (l : List ℝ) :
    ∀ a : ℝ, l ≠ [] → (cum_from a l).getLast? = some (a + l.sum) := by
  induction l with
  | nil => intro a h; cases h rfl
  | cons s t ih =>
    intro a _
    cases t with
    | nil => simp [cum_from]
    | cons s2 t2 =>
      have h2 : cum_from a (s :: s2 :: t2) = (a + s) :: cum_from (a + s) (s2 :: t2) := rfl
      rw [h2]
      have h3 : cum_from (a + s) (s2 :: t2) = (a + s + s2) :: cum_from (a + s + s2) t2 := rfl
      rw [h3, List.getLast?_cons_cons, ← h3, ih (a + s) (List.cons_ne_nil _ _)]
      congr 1
      simp [add_assoc]

theorem zip_cons_getLast {α β : Type} (l1 : List α) :
    ∀ (l2 : List β) (a : α) (b : β), l1.length = l2.length →
      ∃ p, ((a :: l1).zip (b :: l2)).getLast? = some p ∧
        (a :: l1).getLast? = some p.1 ∧ (b :: l2).getLast? = some p.2 := by
  induction l1 with
  | nil =>
    intro l2 a b hlen
    cases l2 with
    | nil => exact ⟨(a, b), rfl, rfl, rfl⟩
    | cons y ys => simp at hlen
  | cons x xs ih =>
    intro l2 a b hlen
    cases l2 with
    | nil => simp at hlen
    | cons y ys =>
      obtain ⟨p, hp, h1, h2⟩ := ih ys x y (by simpa using hlen)
      refine ⟨p, ?_, ?_, ?_⟩
      · have hz : ((x :: xs).zip (y :: ys)) = (x, y) :: (xs.zip ys) := rfl
        have hc : ((a :: x :: xs).zip (b :: y :: ys)) = (a, b) :: ((x :: xs).zip (y :: ys)) := rfl
        rw [hc, hz, List.getLast?_cons_cons, ← hz, hp]
      · rw [List.getLast?_cons_cons, h1]
      · rw [List.getLast?_cons_cons, h2]

theorem getLast?_map {α β : Type} (f : α → β) (l : List α) :
    (l.map f).getLast? = (l.getLast?).map f := by
  induction l with
  | nil => rfl
  | cons a t ih =>
    cases t with
    | nil => rfl
    | cons b t2 =>
      have hm : List.map f (b :: t2) = f b :: List.map f t2 := rfl
      rw [List.map_cons, hm, List.getLast?_cons_cons, ← hm, List.getLast?_cons_cons]
      exact ih

theorem map_snd_zip_eq {α β γ : Type} (g : β → γ) (l1 : List α) :
    ∀ l2 : List β, l1.length = l2.length →
      ((l1.zip l2).map fun ab => g ab.2) = l2.map g := by
  induction l1 with
  | nil =>
    intro l2 hlen
    cases l2 with
    | nil => rfl
    | cons y ys => simp at hlen
  | cons x xs ih =>
    intro l2 hlen
    cases l2 with
    | nil => simp at hlen
    | cons y ys => simp [List.zip_cons_cons, ih ys (by simpa using hlen)]

theorem line_segs_cons_cons (p q : ℝ × ℝ) (rest : List (ℝ × ℝ)) :
    (line_segs (p :: q :: rest)).length = (q :: rest).length := by
  simp [line_segs, List.length_zip]

theorem chain'_le_cum (l : List ℝ) (h : ∀ s ∈ l, 0 ≤ s) :
    ∀ a : ℝ, List.Chain' (fun u v => u ≤ v) (a :: cum_from a l) := by
  induction l with
  | nil => intro a; exact List.chain'_singleton a
  | cons s t ih =>
    intro a
    have hs : 0 ≤ s := h s (List.mem_cons_self s t)
    have : cum_from a (s :: t) = (a + s) :: cum_from (a + s) t := rfl
    rw [this]
    exact List.Chain'.cons (by linarith)
      (ih (fun y hy => h y (List.mem_cons_of_mem s hy)) (a + s))

theorem interp_total_pos (xy : List (ℝ × ℝ)) :
    0 < (if (line_segs xy).sum = 0 then (1:ℝ) / 10 ^ 9 else (line_segs xy).sum) := by
  by_cases h : (line_segs xy).sum = 0
  · rw [if_pos h]; norm_num
  · rw [if_neg h]
    have : 0 ≤ (line_segs xy).sum := List.sum_nonneg (line_segs_nonneg xy)
    exact lt_of_le_of_ne this (Ne.symm h)

/-- The Z sequence produced by `_interp_line` on a path of ≥ 2 vertices is the
image of `0 :: ` the running `acc` values under the affine interpolation map. -/
theorem interp_zs_eq (p q : ℝ × ℝ) (rest : List (ℝ × ℝ)) (z0 z1 : ℝ) :
    (_interp_line (p :: q :: rest) z0 z1).map (fun c => c.2.2) =
      (0 :: cum_from 0 (line_segs (p :: q :: rest))).map
        (fun t => z0 + (z1 - z0) *
          (t / (if (line_segs (p :: q :: rest)).sum = 0 then (1:ℝ) / 10 ^ 9
                else (line_segs (p :: q :: rest)).sum))) := by
  have hlen : (q :: rest).length = (cum_from 0 (line_segs (p :: q :: rest))).length := by
    rw [cum_from_length, line_segs_cons_cons]
  simp only [_interp_line, List.map_cons, List.map_map]
  congr 1
  · simp
  · rw [← map_snd_zip_eq
      (fun t => z0 + (z1 - z0) *
        (t / (if (line_segs (p :: q :: rest)).sum = 0 then (1:ℝ) / 10 ^ 9
              else (line_segs (p :: q :: rest)).sum)))
      (q :: rest) (cum_from 0 (line_segs (p :: q :: rest))) hlen]
    rfl

/-- Claim C4: for every path whose total planar (x,y) length is zero — the
single-vertex path included — `_interp_line` assigns `z0` to every vertex,
and the divisor it uses (`sum(seg) or 1e-9`) is nonzero, so no division by
zero occurs; in particular the single-vertex path gets `z0` regardless of
`z1`. -/
theorem interp_degenerate_zstart (xy : List (ℝ × ℝ)) (z0 z1 : ℝ)
    (h : (line_segs xy).sum = 0) :
    (∀ c ∈ _interp_line xy z0 z1, c.2.2 = z0) ∧
    (if (line_segs xy).sum = 0 then (1:ℝ) / 10 ^ 9 else (line_segs xy).sum) ≠ 0 := by
  refine ⟨?_, by rw [if_pos h]; norm_num⟩
  match xy with
  | [] => intro c hc; simp [_interp_line] at hc
  | [p] =>
    intro c hc
    simp only [_interp_line, List.mem_singleton] at hc
    rw [hc]
  | p :: q :: rest =>
    intro c hc
    have hseg0 : ∀ s ∈ line_segs (p :: q :: rest), s = 0 :=
      sum_zero_of_nonneg (line_segs_nonneg _) h
    simp only [_interp_line, List.mem_cons, List.mem_map] at hc
    rcases hc with rfl | ⟨qa, hqa, rfl⟩
    · rfl
    · have hmem : qa.2 ∈ cum_from 0 (line_segs (p :: q :: rest)) :=
        (List.of_mem_zip hqa).2
      have : qa.2 = 0 := cum_from_const hseg0 0 qa.2 hmem
      simp [this]

/-- Witness for C4 at the single-vertex path `[(2, 3)]` with
`z0 = 5`, `z1 = 11`. -/
theorem interp_degenerate_zstart_witness :
    (line_segs [((2:ℝ), 3)]).sum = 0 ∧
    ((∀ c ∈ _interp_line [((2:ℝ), 3)] 5 11, c.2.2 = 5) ∧
      (if (line_segs [((2:ℝ), 3)]).sum = 0 then (1:ℝ) / 10 ^ 9
       else (line_segs [((2:ℝ), 3)]).sum) ≠ 0) :=
  ⟨by simp [line_segs], interp_degenerate_zstart [((2:ℝ), 3)] 5 11 (by simp [line_segs])⟩

/-- Claim C1, counterexample: on the single-vertex path with
`Interpolated(0, 1)`, the last (= only) vertex carries Z = 0, not the end
elevation 1, refuting `.last.z == b` for paths of ≥ 1 vertex. -/
theorem interp_endpoints_single_vertex_cex :
    _interp_line [((0:ℝ), 0)] 0 1 = [(0, 0, 0)] ∧
    ((_interp_line [((0:ℝ), 0)] 0 1).getLast?.map fun c => c.2.2) = some 0 ∧
    (0:ℝ) ≠ 1 :=
  ⟨rfl, rfl, by norm_num⟩

/-- Claim C1, amended: for every path of nonzero total planar length,
`_interp_line` gives the first vertex exactly `z0` and the last vertex
exactly `z1`. -/
theorem interp_endpoints_exact (xy : List (ℝ × ℝ)) (z0 z1 : ℝ)
    (h : (line_segs xy).sum ≠ 0) :
    ((_interp_line xy z0 z1).head?.map fun c => c.2.2) = some z0 ∧
    ((_interp_line xy z0 z1).getLast?.map fun c => c.2.2) = some z1 := by
  match xy with
  | [] => simp [line_segs] at h
  | [p] => simp [line_segs] at h
  | p :: q :: rest =>
    constructor
    · simp [_interp_line]
    · have hne : line_segs (p :: q :: rest) ≠ [] := by
        intro hnil
        have := line_segs_cons_cons p q rest
        rw [hnil] at this
        simp at this
      rcases hs : line_segs (p :: q :: rest) with _ | ⟨s0, stail⟩
      · exact absurd hs hne
      · have hlen2 : rest.length = (cum_from (0 + s0) stail).length := by
          have hl := line_segs_cons_cons p q rest
          rw [hs] at hl
          simp at hl
          rw [cum_from_length]
          omega
        obtain ⟨pr, hzip, h1, h2⟩ :=
          zip_cons_getLast rest (cum_from (0 + s0) stail) q (0 + s0) hlen2
        have hcum_shape : cum_from 0 (line_segs (p :: q :: rest)) =
            (0 + s0) :: cum_from (0 + s0) stail := by rw [hs]; rfl
        have hsum : (cum_from 0 (line_segs (p :: q :: rest))).getLast? =
            some (0 + (line_segs (p :: q :: rest)).sum) :=
          cum_from_getLast _ 0 (by rw [hs]; exact List.cons_ne_nil _ _)
        have hpr2 : pr.2 = (line_segs (p :: q :: rest)).sum := by
          rw [hcum_shape] at hsum
          rw [h2] at hsum
          have := Option.some.inj hsum
          rw [this]
          ring
        -- compute the last element of the produced list
        have hzc : ((q :: rest).zip ((0 + s0) :: cum_from (0 + s0) stail)) =
            (q, 0 + s0) :: (rest.zip (cum_from (0 + s0) stail)) := rfl
        simp only [_interp_line]
        rw [hcum_shape, hzc, List.map_cons]
        have hmapLast := getLast?_map
          (fun qa : (ℝ × ℝ) × ℝ => (qa.1.1, qa.1.2, z0 + (z1 - z0) *
            (qa.2 / (if (line_segs (p :: q :: rest)).sum = 0 then (1:ℝ) / 10 ^ 9
                     else (line_segs (p :: q :: rest)).sum))))
          ((q :: rest).zip ((0 + s0) :: cum_from (0 + s0) stail))
        rw [hzc, List.map_cons] at hmapLast
        rw [List.getLast?_cons_cons, hmapLast, ← hzc, hzip]
        simp only [Option.map_some']
        rw [if_neg h]
        congr 1
        rw [hpr2, div_self h]
        ring

/-- Witness for C1 at the two-vertex unit-length path, `z0 = 5`, `z1 = 7`. -/
theorem interp_endpoints_exact_witness :
    (line_segs [((0:ℝ), 0), (1, 0)]).sum ≠ 0 ∧
    (((_interp_line [((0:ℝ), 0), (1, 0)] 5 7).head?.map fun c => c.2.2) = some 5 ∧
      ((_interp_line [((0:ℝ), 0), (1, 0)] 5 7).getLast?.map fun c => c.2.2) = some 7) :=
  ⟨by simp [line_segs, hypot],
   interp_endpoints_exact [((0:ℝ), 0), (1, 0)] 5 7 (by simp [line_segs, hypot])⟩

theorem interp_chain_le (xy : List (ℝ × ℝ)) (z0 z1 : ℝ) (h : z0 ≤ z1) :
    List.Chain' (fun u v => u ≤ v)
      ((_interp_line xy z0 z1).map fun c => c.2.2) := by
  match xy with
  | [] => simp [_interp_line]
  | [p] => simp [_interp_line]
  | p :: q :: rest =>
    rw [interp_zs_eq]
    rw [List.chain'_map]
    have hchain := chain'_le_cum (line_segs (p :: q :: rest)) (line_segs_nonneg _) 0
    refine hchain.imp ?_
    intro a b hab
    have htot := interp_total_pos (p :: q :: rest)
    have hz : 0 ≤ z1 - z0 := by linarith
    have hdiv := (div_le_div_iff_of_pos_right htot).mpr hab
    have := mul_le_mul_of_nonneg_left hdiv hz
    linarith

theorem interp_chain_ge (xy : List (ℝ × ℝ)) (z0 z1 : ℝ) (h : z1 ≤ z0) :
    List.Chain' (fun u v => v ≤ u)
      ((_interp_line xy z0 z1).map fun c => c.2.2) := by
  match xy with
  | [] => simp [_interp_line]
  | [p] => simp [_interp_line]
  | p :: q :: rest =>
    rw [interp_zs_eq]
    rw [List.chain'_map]
    have hchain := chain'_le_cum (line_segs (p :: q :: rest)) (line_segs_nonneg _) 0
    refine hchain.imp ?_
    intro a b hab
    have htot := interp_total_pos (p :: q :: rest)
    have hz : z1 - z0 ≤ 0 := by linarith
    have hdiv := (div_le_div_iff_of_pos_right htot).mpr hab
    have := mul_le_mul_of_nonpos_left hdiv hz
    linarith

/-- Claim C5: for a path with at least two distinct vertices and
`z0 ≠ z1`, the Z values of `_interp_line` along the path are non-decreasing
when `z0 < z1` and non-increasing when `z0 > z1`. -/
theorem interp_z_monotone (xy : List (ℝ × ℝ)) (z0 z1 : ℝ)
    (hd : ∃ a ∈ xy, ∃ b ∈ xy, a ≠ b) (hz : z0 ≠ z1) :
    (z0 < z1 → List.Chain' (fun u v => u ≤ v)
      ((_interp_line xy z0 z1).map fun c => c.2.2)) ∧
    (z1 < z0 → List.Chain' (fun u v => v ≤ u)
      ((_interp_line xy z0 z1).map fun c => c.2.2)) :=
  ⟨fun hlt => interp_chain_le xy z0 z1 hlt.le,
   fun hlt => interp_chain_ge xy z0 z1 hlt.le⟩

/-- Witness for C5 at the path `[(0,0), (1,0)]` with `z0 = 5`, `z1 = 7`. -/
theorem interp_z_monotone_witness :
    (∃ a ∈ [((0:ℝ), 0), (1, 0)], ∃ b ∈ [((0:ℝ), 0), (1, 0)], a ≠ b) ∧
    ((5:ℝ) ≠ 7) ∧
    (((5:ℝ) < 7 → List.Chain' (fun u v => u ≤ v)
      ((_interp_line [((0:ℝ), 0), (1, 0)] 5 7).map fun c => c.2.2)) ∧
     ((7:ℝ) < 5 → List.Chain' (fun u v => v ≤ u)
      ((_interp_line [((0:ℝ), 0), (1, 0)] 5 7).map fun c => c.2.2))) :=
  ⟨⟨(0, 0), by simp, (1, 0), by simp, by norm_num [Prod.ext_iff]⟩,
   by norm_num,
   interp_z_monotone [((0:ℝ), 0), (1, 0)] 5 7
     ⟨(0, 0), by simp, (1, 0), by simp, by norm_num [Prod.ext_iff]⟩ (by norm_num)⟩

/-- Claim C3, counterexample: the function `add_z_geometry` under an Interpolated policy
returns a non-path shape unchanged: the point keeps its missing Z instead of
receiving `zStart = 5`. -/
theorem nonpath_unchanged_cex :
    add_z_geometry (.point 0 0 none) 5 9 = .point 0 0 none ∧
    NwGeom.point 0 0 none ≠ NwGeom.point 0 0 (some 5) :=
  ⟨rfl, by simp⟩

/-- Claim C3, amended: when `add_z_geometry` (the Interpolated projection)
reaches a shape that is neither a `LineString` nor a `MultiLineString`, the
shape is returned unchanged — no Z (in particular not `zStart`) is
assigned. -/
theorem nonpath_unchanged (g : NwGeom) (z0 z1 : ℝ)
    (hline : ∀ c, g ≠ .line c) (hmulti : ∀ ps, g ≠ .multiLine ps) :
    add_z_geometry g z0 z1 = g := by
  cases g with
  | point x y z => rfl
  | line c => exact absurd rfl (hline c)
  | line3d c => rfl
  | multiLine ps => exact absurd rfl (hmulti ps)
  | multiLine3d ps => rfl

/-- Witness for C3 at the point `(0, 0)` with no Z. -/
theorem nonpath_unchanged_witness :
    (∀ c, NwGeom.point 0 0 none ≠ NwGeom.line c) ∧
    (∀ ps, NwGeom.point 0 0 none ≠ NwGeom.multiLine ps) ∧
    add_z_geometry (.point 0 0 none) 5 9 = .point 0 0 none :=
  ⟨fun c => by simp, fun ps => by simp,
   nonpath_unchanged (.point 0 0 none) 5 9 (fun c => by simp) (fun ps => by simp)⟩

/-- Claim C7: the function `ord_to_floor` is undefined on an absent or non-convertible
input; otherwise it rounds to the nearest integer `v` (ties to even, as
Python `round`) and yields `"{abs(v)}B"` for `v < 0`, `"0F"` for `v = 0`,
`"{v}F"` for `v > 0`; in particular `-2 ↦ "2B"`, `0 ↦ "0F"`, `2.6 ↦ "3F"`,
`None ↦ undefined`. -/
theorem ord_to_floor_spec :
    ord_to_floor .absent = none ∧
    ord_to_floor .nonNumeric = none ∧
    (∀ q : ℚ, ord_to_floor (.num q) =
      some (if round_half_even q < 0 then toString (round_half_even q).natAbs ++ "B"
            else if round_half_even q = 0 then "0F"
            else toString (round_half_even q).toNat ++ "F")) ∧
    ord_to_floor (.num (-2)) = some "2B" ∧
    ord_to_floor (.num 0) = some "0F" ∧
    ord_to_floor (.num (26/10)) = some "3F" := by
  refine ⟨rfl, rfl, fun q => rfl, ?_, ?_, ?_⟩
  · have h : round_half_even (-2) = -2 :=
      round_half_even_lo _ _ (by norm_num) (by norm_num)
    simp only [ord_to_floor, h]
    decide
  · have h : round_half_even 0 = 0 :=
      round_half_even_lo _ _ (by norm_num) (by norm_num)
    simp only [ord_to_floor, h]
    decide
  · have h : round_half_even (26/10) = 3 :=
      round_half_even_hi _ 2 (by rw [Int.floor_eq_iff]; norm_num) (by norm_num)
    simp only [ord_to_floor, h]
    decide

/-- Claim C10: at exact halves `ord_to_floor` rounds half to even (Python
`round`): `2.5 ↦ "2F"`, `3.5 ↦ "4F"`, `-0.5 ↦ "0F"`. -/
theorem ord_to_floor_bankers :
    ord_to_floor (.num (5/2)) = some "2F" ∧
    ord_to_floor (.num (7/2)) = some "4F" ∧
    ord_to_floor (.num (-1/2)) = some "0F" := by
  refine ⟨?_, ?_, ?_⟩
  · have h : round_half_even (5/2) = 2 :=
      round_half_even_half_even _ 2 (by rw [Int.floor_eq_iff]; norm_num)
        (by norm_num) (by decide)
    simp only [ord_to_floor, h]
    decide
  · have h : round_half_even (7/2) = 4 := by
      have h4 := round_half_even_half_odd (7/2 : ℚ) 3
        (by rw [Int.floor_eq_iff]; norm_num) (by norm_num) (by decide)
      simpa using h4
    simp only [ord_to_floor, h]
    decide
  · have h : round_half_even (-1/2) = 0 := by
      have h0 := round_half_even_half_odd (-1/2 : ℚ) (-1)
        (by rw [Int.floor_eq_iff]; norm_num) (by norm_num) (by decide)
      simpa using h0
    simp only [ord_to_floor, h]
    decide

theorem infer_floor_loop_eq_find (name : String) :
    ∀ rules : List (String × String), infer_floor_loop name rules =
      (((rules.find? fun pl => pat_search pl.1 name).map Prod.snd).getD "0F") := by
  intro rules
  induction rules with
  | nil => rfl
  | cons pl rest ih =>
    by_cases h : pat_search pl.1 name
    · simp [infer_floor_loop, h, List.find?]
    · simp [infer_floor_loop, h, List.find?, ih]

/-- Claim C8: the function `infer_floor_label` returns the label of the first rule of
`PATTERNS` whose pattern matches, and `"0F"` when none matches; rule order
decides overlaps, so a name containing the `2out` token yields `"2out"`,
not `"2F"` (on `"a_2out_2.shp"` both the `_2out` rule and the `_2` rule
match, and the earlier `_2out` rule wins). -/
theorem infer_floor_label_first_match :
    (∀ name, infer_floor_label name =
      (((PATTERNS.find? fun pl => pat_search pl.1 name).map Prod.snd).getD "0F")) ∧
    infer_floor_label "foo_2out_bar" = "2out" ∧
    infer_floor_label "foo_2out_bar" ≠ "2F" ∧
    pat_search "_2out" "a_2out_2.shp" = true ∧
    pat_search "_2" "a_2out_2.shp" = true ∧
    infer_floor_label "a_2out_2.shp" = "2out" :=
  ⟨fun name => infer_floor_loop_eq_find name PATTERNS,
   by decide, by decide, by decide, by decide, by decide⟩

mutual
/-- A representable empty geometry has no leaf coordinates. -/
theorem leafZs_isVoid (g : Geom) (hr : g.repOk = true) (he : g.isVoid = true) :
    leafZs g = [] := by
  cases g with
  | point x y z => simp [Geom.isVoid] at he
  | multiPoint ps =>
    simp only [Geom.isVoid, List.isEmpty_iff] at he
    simp [leafZs, he]
  | lineString cs =>
    simp only [Geom.isVoid, List.isEmpty_iff] at he
    simp [leafZs, he]
  | multiLineString ls =>
    simp only [Geom.isVoid, List.all_eq_true, List.isEmpty_iff] at he
    simp only [leafZs, List.flatten_eq_nil_iff, List.mem_map]
    rintro x ⟨cs, hcs, rfl⟩
    simp [he cs hcs]
  | polygon ext ints =>
    simp only [Geom.isVoid, List.isEmpty_iff] at he
    simp only [Geom.repOk, he, Bool.or_eq_true, List.isEmpty_iff] at hr
    rcases hr with hr | hr
    · simp at hr
    · simp [leafZs, he, hr]
  | multiPolygon ps =>
    simp only [Geom.isVoid, List.all_eq_true, List.isEmpty_iff] at he
    simp only [Geom.repOk, List.all_eq_true, Bool.or_eq_true,
      Bool.not_eq_eq_eq_not, Bool.not_true, List.isEmpty_iff] at hr
    simp only [leafZs, List.flatten_eq_nil_iff, List.mem_map]
    rintro x ⟨pr, hpr, rfl⟩
    have h1 := he pr hpr
    rcases hr pr hpr with h2 | h2
    · rw [h1] at h2
      simp [List.isEmpty_iff] at h2
    · simp [h1, h2]
  | collection gs =>
    simp only [Geom.isVoid] at he
    simp only [Geom.repOk] at hr
    simpa [leafZs] using leafZsList_isVoid gs hr he
/-- List version of `leafZs_isVoid`. -/
theorem leafZsList_isVoid (gs : List Geom) (hr : Geom.repOkList gs = true)
    (he : Geom.isVoidList gs = true) : leafZsList gs = [] := by
  cases gs with
  | nil => rfl
  | cons g rest =>
    simp only [Geom.isVoidList, Bool.and_eq_true] at he
    simp only [Geom.repOkList, Bool.and_eq_true] at hr
    simp [leafZsList, leafZs_isVoid g hr.1 he.1, leafZsList_isVoid rest hr.2 he.2]
end

mutual
/-- Every leaf Z of `add_z_to_geom g z` equals `some z`, for representable
geometries. -/
theorem add_z_leaf (g : Geom) (z : ℚ) (hr : g.repOk = true) :
    ∀ oz ∈ leafZs (add_z_to_geom g z), oz = some z := by
  intro oz hoz
  by_cases hv : g.isVoid = true
  · rw [add_z_to_geom.eq_def] at hoz
    rw [if_pos hv] at hoz
    rw [leafZs_isVoid g hr hv] at hoz
    cases hoz
  · rw [add_z_to_geom.eq_def, if_neg hv] at hoz
    cases g with
    | point x y zold => simpa [leafZs] using hoz
    | multiPoint ps =>
      simp only [leafZs, List.mem_map] at hoz
      obtain ⟨c, ⟨c0, _, rfl⟩, rfl⟩ := hoz
      rfl
    | lineString cs =>
      simp only [leafZs, List.mem_map] at hoz
      obtain ⟨c, ⟨c0, _, rfl⟩, rfl⟩ := hoz
      rfl
    | multiLineString ls =>
      simp only [leafZs, List.mem_flatten, List.mem_map] at hoz
      obtain ⟨part, ⟨cs2, ⟨cs0, _, rfl⟩, rfl⟩, hmem⟩ := hoz
      simp only [List.map_map, List.mem_map] at hmem
      obtain ⟨c0, _, rfl⟩ := hmem
      rfl
    | polygon ext ints =>
      simp only [leafZs, List.mem_append, List.mem_flatten, List.mem_map] at hoz
      rcases hoz with ⟨c, ⟨c0, _, rfl⟩, rfl⟩ | ⟨part, ⟨r2, ⟨r0, _, rfl⟩, rfl⟩, hmem⟩
      · rfl
      · simp only [List.map_map, List.mem_map] at hmem
        obtain ⟨c0, _, rfl⟩ := hmem
        rfl
    | multiPolygon ps =>
      simp only [leafZs, List.mem_flatten, List.mem_map] at hoz
      obtain ⟨part, ⟨pr2, ⟨pr0, _, rfl⟩, rfl⟩, hmem⟩ := hoz
      simp only [List.mem_append, List.mem_flatten, List.map_map, List.mem_map] at hmem
      rcases hmem with ⟨c0, _, rfl⟩ | ⟨r2, ⟨r0, _, rfl⟩, hmem2⟩
      · rfl
      · simp only [List.mem_map, Function.comp] at hmem2
        obtain ⟨c0, ⟨a0, _, rfl⟩, rfl⟩ := hmem2
        rfl
    | collection gs =>
      simp only [Geom.repOk] at hr
      simp only [leafZs] at hoz
      exact add_z_leaf_list gs z hr oz hoz
/-- List version of `add_z_leaf`. -/
theorem add_z_leaf_list (gs : List Geom) (z : ℚ) (hr : Geom.repOkList gs = true) :
    ∀ oz ∈ leafZsList (add_z_to_geom_list gs z), oz = some z := by
  intro oz hoz
  cases gs with
  | nil => cases hoz
  | cons g rest =>
    simp only [Geom.repOkList, Bool.and_eq_true] at hr
    simp only [add_z_to_geom_list, leafZsList, List.mem_append] at hoz
    rcases hoz with h | h
    · exact add_z_leaf g z hr.1 oz h
    · exact add_z_leaf_list rest z hr.2 oz h
end

/-- Claim C2: projecting any supported, representable geometry (point,
multi-point, line string, multi-line string, polygon with interior rings,
multi-polygon, geometry collection at arbitrary nesting) with the uniform
policy `add_z_to_geom · z` makes every leaf coordinate's Z equal `z`,
whether or not the coordinate had a pre-existing Z. -/
theorem uniform_z_overwrites_all_leaves (g : Geom) (z : ℚ)
    (hr : g.repOk = true) :
    ∀ oz ∈ leafZs (add_z_to_geom g z), oz = some z :=
  add_z_leaf g z hr

/-- Witness for C2 on a nested collection holding a polygon with an interior
ring, a point with a pre-existing Z, a multi-polygon, lines and multi-points. -/
theorem uniform_z_overwrites_all_leaves_witness :
    (Geom.collection [
      .polygon [(0,0,some 9),(1,0,none),(0,1,none)] [[(1,1,none)]],
      .point 5 5 (some 1),
      .multiPolygon [([(0,0,none),(2,0,some 3)], [[(1,1,some 4)]])],
      .lineString [(1,2,some 8),(3,4,none)],
      .multiLineString [[(0,0,none)],[(2,2,some 6)]],
      .multiPoint [(4,4,some 4)],
      .collection []]).repOk = true ∧
    ∀ oz ∈ leafZs (add_z_to_geom (Geom.collection [
      .polygon [(0,0,some 9),(1,0,none),(0,1,none)] [[(1,1,none)]],
      .point 5 5 (some 1),
      .multiPolygon [([(0,0,none),(2,0,some 3)], [[(1,1,some 4)]])],
      .lineString [(1,2,some 8),(3,4,none)],
      .multiLineString [[(0,0,none)],[(2,2,some 6)]],
      .multiPoint [(4,4,some 4)],
      .collection []]) 7), oz = some 7 :=
  ⟨rfl, uniform_z_overwrites_all_leaves _ 7 rfl⟩

theorem walk_coords_list_eq_map (l : List J) :
    walk_coords_list l = l.map walk_coords := by
  induction l with
  | nil => rfl
  | cons j js ih => simp [walk_coords_list, ih]

theorem with_z_arr (l : List J) : ∃ l2, with_z (.arr l) = .arr l2 := by
  simp only [with_z]
  split
  · exact ⟨l, rfl⟩
  · split
    · split
      · exact ⟨l, rfl⟩
      · exact ⟨_, rfl⟩
    · exact ⟨_, rfl⟩

theorem isNum_walk_coords (j : J) : J.isNum (walk_coords j) = J.isNum j := by
  cases j with
  | num q => rfl
  | other => rfl
  | arr l =>
    simp only [walk_coords]
    by_cases h : isCoordArr l = true
    · rw [if_pos h]
      obtain ⟨l2, hl2⟩ := with_z_arr l
      rw [hl2]
      rfl
    · rw [if_neg h]
      rfl

theorem isCoordArr_walk_list (l : List J) :
    isCoordArr (walk_coords_list l) = isCoordArr l := by
  cases l with
  | nil => rfl
  | cons a t =>
    cases t with
    | nil => simp [walk_coords_list, isCoordArr]
    | cons b t2 =>
      simp [walk_coords_list, isCoordArr, isNum_walk_coords,
        walk_coords_list_eq_map]

mutual
/-- Function `walk_coords` turns every 2- or 3-component coordinate array into an
exactly-3-component numeric one. -/
theorem walk_coords_out (j : J) (h : coordsSat coordIn j = true) :
    coordsSat coordOut3 (walk_coords j) = true := by
  cases j with
  | num q => rfl
  | other => rfl
  | arr l =>
    by_cases hc : isCoordArr l = true
    · rw [coordsSat, if_pos hc] at h
      rw [walk_coords, if_pos hc]
      simp only [coordIn, Bool.or_eq_true, decide_eq_true_eq] at h
      rcases h with h2 | h3
      · obtain ⟨a, b, rfl⟩ := List.length_eq_two.mp h2
        have ha : J.isNum a = true ∧ J.isNum b = true := by
          simpa [isCoordArr] using hc
        have hca : isCoordArr [a, b, J.num BASE_Z] = true := by
          simp [isCoordArr, ha.1, ha.2]
        have hw : with_z (.arr [a, b]) = .arr [a, b, .num BASE_Z] := rfl
        show coordsSat coordOut3 (with_z (.arr [a, b])) = true
        rw [hw, coordsSat, if_pos hca]
        simp only [coordOut3, List.all_cons, List.all_nil, Bool.and_eq_true,
          decide_eq_true_eq]
        refine ⟨rfl, ha.1, ha.2, rfl, trivial⟩
      · obtain ⟨a, b, c, rfl⟩ := List.length_eq_three.mp h3
        have ha : J.isNum a = true ∧ J.isNum b = true := by
          simpa [isCoordArr] using hc
        have hca : isCoordArr [a, b, J.num BASE_Z] = true := by
          simp [isCoordArr, ha.1, ha.2]
        have hw : with_z (.arr [a, b, c]) = .arr [a, b, .num BASE_Z] := rfl
        show coordsSat coordOut3 (with_z (.arr [a, b, c])) = true
        rw [hw, coordsSat, if_pos hca]
        simp only [coordOut3, List.all_cons, List.all_nil, Bool.and_eq_true,
          decide_eq_true_eq]
        refine ⟨rfl, ha.1, ha.2, rfl, trivial⟩
    · rw [coordsSat, if_neg hc] at h
      rw [walk_coords, if_neg hc]
      rw [coordsSat, if_neg (by rw [isCoordArr_walk_list]; exact hc)]
      exact walk_coords_list_out l h
/-- List version of `walk_coords_out`. -/
theorem walk_coords_list_out (l : List J)
    (h : coordsSat_list coordIn l = true) :
    coordsSat_list coordOut3 (walk_coords_list l) = true := by
  cases l with
  | nil => rfl
  | cons j js =>
    simp only [coordsSat_list, Bool.and_eq_true] at h
    rw [walk_coords_list]
    simp only [coordsSat_list, Bool.and_eq_true]
    exact ⟨walk_coords_out j h.1, walk_coords_list_out js h.2⟩
end

mutual
/-- Geometry-level lift of `walk_coords_out`. -/
theorem process_geom_out (g : GeoObj) (h : geomSat coordIn g = true) :
    geomSat coordOut3 (process_geom g) = true := by
  cases g with
  | geom c => exact walk_coords_out c h
  | coll gs => exact process_geom_list_out gs h
/-- List version of `process_geom_out`. -/
theorem process_geom_list_out (gs : List GeoObj)
    (h : geomSat_list coordIn gs = true) :
    geomSat_list coordOut3 (process_geom_list gs) = true := by
  cases gs with
  | nil => rfl
  | cons g rest =>
    simp only [geomSat_list, Bool.and_eq_true] at h
    rw [process_geom_list]
    simp only [geomSat_list, Bool.and_eq_true]
    exact ⟨process_geom_out g h.1, process_geom_list_out rest h.2⟩
end

/-- Claim C9, counterexample: a leaf coordinate array with four numeric
components keeps four components under the overwrite projection: on
`[[1, 2, 9, 4]]` the result contains `[1, 2, 3.2, 4]`, so not every leaf
coordinate array of the result has exactly 3 components. -/
theorem walk_coords_three_components_cex :
    process_geom (.geom (.arr [.arr [.num 1, .num 2, .num 9, .num 4]])) =
      .geom (.arr [.arr [.num 1, .num 2, .num BASE_Z, .num 4]]) ∧
    geomSat coordOut3
      (process_geom (.geom (.arr [.arr [.num 1, .num 2, .num 9, .num 4]]))) = false :=
  ⟨rfl, by decide⟩

/-- Claim C9, amended: after the Z-projection (overwrite policy,
`FILL_ONLY = false`), every leaf coordinate array of the result has exactly
3 numeric components, provided every input leaf coordinate array has 2 or 3
components. -/
theorem projection_three_components (g : GeoObj)
    (h : geomSat coordIn g = true) :
    geomSat coordOut3 (process_geom g) = true :=
  process_geom_out g h

/-- Witness for C9 on a nested geometry with a collection, 2- and
3-component coordinates. -/
theorem projection_three_components_witness :
    geomSat coordIn (GeoObj.coll [
      .geom (.arr [.arr [.num 1, .num 2], .arr [.num 3, .num 4, .num 9]]),
      .geom (.arr [.num 5, .num 6]),
      .coll [.geom (.arr [.arr [.arr [.num 0, .num 1]]])]]) = true ∧
    geomSat coordOut3 (process_geom (GeoObj.coll [
      .geom (.arr [.arr [.num 1, .num 2], .arr [.num 3, .num 4, .num 9]]),
      .geom (.arr [.num 5, .num 6]),
      .coll [.geom (.arr [.arr [.arr [.num 0, .num 1]]])]])) = true :=
  ⟨by decide, projection_three_components _ (by decide)⟩

theorem length_filter_partition {α : Type} (l : List α) (p : α → Bool) :
    (l.filter p).length + (l.filter fun a => !(p a)).length = l.length := by
  induction l with
  | nil => rfl
  | cons a t ih =>
    by_cases h : p a
    · simp [List.filter_cons, h, ← ih]
      omega
    · simp only [List.filter_cons, h, Bool.not_false, if_neg, cond_false]
      simp [h, List.length_cons, ← ih]
      omega

theorem isNone_or_eq_not_isSome_and (a b : Option ℚ) :
    (a.isNone || b.isNone) = !(a.isSome && b.isSome) := by
  cases a <;> cases b <;> rfl

/-- Claim C6: links whose start or end node is unmatched, or whose matched
node has an undefined Z, are exactly the counted `missing` rows and are
excluded from the output, never receiving a default Z; every link kept in
`links_out` carries a `z_start` and `z_end` that are precisely the resolved
node elevations of its endpoints.  (Node ids are unique keys, so the pandas
left merge is the first-match lookup.) -/
theorem links_merge_partition_resolved (nodes : List NwNode) (links : List NwLink)
    (huniq : (nodes.map NwNode.node_id).Nodup) :
    (links_out nodes links).length + (missing_links nodes links).length = links.length ∧
    (∀ m ∈ links_out nodes links,
      ∃ zs ze, m.z_start = some zs ∧ m.z_end = some ze ∧
        lookup_z nodes m.link.start_id = some zs ∧
        lookup_z nodes m.link.end_id = some ze) ∧
    (∀ l ∈ links,
      (lookup_z nodes l.start_id = none ∨ lookup_z nodes l.end_id = none) →
        (⟨l, lookup_z nodes l.start_id, lookup_z nodes l.end_id⟩ : MergedLink) ∈
            missing_links nodes links ∧
          ∀ m ∈ links_out nodes links, m.link ≠ l) := by
  refine ⟨?_, ?_, ?_⟩
  · have hpart := length_filter_partition (links_merge nodes links)
      (fun m => m.z_start.isSome && m.z_end.isSome)
    have hmiss : (missing_links nodes links) =
        (links_merge nodes links).filter
          fun m => !(m.z_start.isSome && m.z_end.isSome) := by
      unfold missing_links
      congr 1
      funext m
      exact isNone_or_eq_not_isSome_and m.z_start m.z_end
    rw [links_out, hmiss, hpart, links_merge, List.length_map]
  · intro m hm
    rcases List.mem_filter.mp hm with ⟨hmem, hsome⟩
    simp only [Bool.and_eq_true, Option.isSome_iff_exists] at hsome
    obtain ⟨⟨zs, hzs⟩, ⟨ze, hze⟩⟩ := hsome
    refine ⟨zs, ze, hzs, hze, ?_, ?_⟩
    · rcases List.mem_map.mp hmem with ⟨l, _, rfl⟩
      simpa using hzs
    · rcases List.mem_map.mp hmem with ⟨l, _, rfl⟩
      simpa using hze
  · intro l hl hnone
    constructor
    · apply List.mem_filter.mpr
      refine ⟨List.mem_map.mpr ⟨l, hl, rfl⟩, ?_⟩
      rcases hnone with h | h <;> simp [h]
    · intro m hm hml
      rcases List.mem_filter.mp hm with ⟨hmem, hsome⟩
      rcases List.mem_map.mp hmem with ⟨l2, _, rfl⟩
      simp only at hml
      subst hml
      simp only [Bool.and_eq_true, Option.isSome_iff_exists] at hsome
      rcases hnone with h | h
      · rcases hsome.1 with ⟨zs, hzs⟩
        simp only [h] at hzs
        cases hzs
      · rcases hsome.2 with ⟨ze, hze⟩
        simp only [h] at hze
        cases hze

/-- Witness for C6, the spec's example: node `A` at ordinal 0 resolves, node
`B` at ordinal 99 maps to label `"99F"` with no offset, so the link `A→B` is
counted missing and zero links are emitted. -/
theorem links_merge_partition_resolved_witness :
    (([⟨"A", OrdVal.num 0⟩, ⟨"B", OrdVal.num 99⟩] : List NwNode).map
      NwNode.node_id).Nodup ∧
    (links_out [⟨"A", OrdVal.num 0⟩, ⟨"B", OrdVal.num 99⟩]
      [⟨"A", "B"⟩]).length = 0 ∧
    (missing_links [⟨"A", OrdVal.num 0⟩, ⟨"B", OrdVal.num 99⟩]
      [⟨"A", "B"⟩]).length = 1 ∧
    (links_out [⟨"A", OrdVal.num 0⟩, ⟨"B", OrdVal.num 99⟩]
        [⟨"A", "B"⟩]).length +
      (missing_links [⟨"A", OrdVal.num 0⟩, ⟨"B", OrdVal.num 99⟩]
        [⟨"A", "B"⟩]).length = 1 := by
  have h0 : ord_to_floor (.num 0) = some "0F" := by
    have h : round_half_even 0 = 0 :=
      round_half_even_lo _ _ (by norm_num) (by norm_num)
    simp only [ord_to_floor, h]
    decide
  have h99 : ord_to_floor (.num 99) = some "99F" := by
    have h : round_half_even 99 = 99 :=
      round_half_even_lo _ _ (by norm_num) (by norm_num)
    simp only [ord_to_floor, h]
    decide
  have hz0 : node_z ⟨"A", .num 0⟩ = some (BASE_Z + 0) := by
    rw [node_z, h0]
    rfl
  have hz99 : node_z ⟨"B", .num 99⟩ = none := by
    rw [node_z, h99]
    rfl
  have hfA : List.find? (fun n => n.node_id == "A")
      ([⟨"A", .num 0⟩, ⟨"B", .num 99⟩] : List NwNode) = some ⟨"A", .num 0⟩ := rfl
  have hfB : List.find? (fun n => n.node_id == "B")
      ([⟨"A", .num 0⟩, ⟨"B", .num 99⟩] : List NwNode) = some ⟨"B", .num 99⟩ := rfl
  have hA : lookup_z [⟨"A", .num 0⟩, ⟨"B", .num 99⟩] "A" = some (BASE_Z + 0) := by
    rw [lookup_z, hfA]
    exact hz0
  have hB : lookup_z [⟨"A", .num 0⟩, ⟨"B", .num 99⟩] "B" = none := by
    rw [lookup_z, hfB]
    exact hz99
  have hout : (links_out [⟨"A", OrdVal.num 0⟩, ⟨"B", OrdVal.num 99⟩]
      [⟨"A", "B"⟩]).length = 0 := by
    simp [links_out, links_merge, hA, hB]
  have hmiss : (missing_links [⟨"A", OrdVal.num 0⟩, ⟨"B", OrdVal.num 99⟩]
      [⟨"A", "B"⟩]).length = 1 := by
    simp [missing_links, links_merge, hA, hB]
  exact ⟨by decide, hout, hmiss,
    (links_merge_partition_resolved [⟨"A", OrdVal.num 0⟩, ⟨"B", OrdVal.num 99⟩]
      [⟨"A", "B"⟩] (by decide)).1⟩
